import Mathlib

/-
Shallow embedding of the GPU pipeline emitter
(jax/_src/pallas/mosaic_gpu/pipeline.py) and proofs about it.

The embedding models:
  * the grid index arithmetic (the source function named with the
    words inc and grid),
  * the buffered-operand slice computation and index-invariance
    analysis (BufferedRef methods),
  * the pipeline scheduler (emit_pipeline / scoped_pipeline /
    loop_body) as a function from a static configuration to the list
    of scheduling events it issues (copies in and out, barrier waits,
    commits, body invocations), mirroring the source line by line.

Machine integers are modelled as Nat / Int; the quantities involved
(grid indices, step counters, slice starts and sizes) are small and
the source never relies on wraparound for them.
-/

namespace Pipeline

/-! ### Grid index arithmetic -/

/-- One axis of the grid-increment loop body: given the axis index with
the incoming carry already added and the axis size, the source branches
on whether the sum is below twice the size, using a subtract-and-carry
fast path there and true division/remainder otherwise. -/
def inc_axis (idx size : Nat) : Nat × Nat :=
  if idx < 2 * size then
    if idx < size then (idx, 0) else (idx - size, 1)
  else
    (idx % size, idx / size)

/-- The iteration of the grid-increment function over (index, size)
pairs listed fastest-varying axis first, threading the carry leftward;
returns the new indices, fastest-varying axis first. -/
def inc_grid_loop : List (Nat × Nat) → Nat → List Nat
  | [], _ => []
  | (idx, size) :: rest, carry =>
      let p := inc_axis (idx + carry) size
      p.1 :: inc_grid_loop rest p.2

/-- Embedding of the source's grid increment: advance `indices` by
`steps` steps through the mixed-radix counter shaped by `grid`. The
source iterates over the reversed zip of indices and grid and reverses
the accumulated result back at the end. -/
def inc_grid (indices grid : List Nat) (steps : Nat) : List Nat :=
  (inc_grid_loop ((indices.zip grid).reverse) steps).reverse

/-- Reference one-axis step that always uses division/remainder. -/
def inc_axis_divmod (idx size : Nat) : Nat × Nat :=
  (idx % size, idx / size)

/-- Reference iteration using only division/remainder on every axis. -/
def inc_grid_loop_divmod : List (Nat × Nat) → Nat → List Nat
  | [], _ => []
  | (idx, size) :: rest, carry =>
      let p := inc_axis_divmod (idx + carry) size
      p.1 :: inc_grid_loop_divmod rest p.2

/-- Plain mixed-radix division/remainder definition of the grid
increment, written from the spec's fallback description, to be compared
with the dual-path implementation. -/
def inc_grid_divmod (indices grid : List Nat) (steps : Nat) : List Nat :=
  (inc_grid_loop_divmod ((indices.zip grid).reverse) steps).reverse

/-! ### Mixed-radix digit characterization -/

/-- Mixed-radix digits of `n` for the given axis sizes, fastest-varying
axis first. -/
def mixed_digits : List Nat → Nat → List Nat
  | [], _ => []
  | size :: rest, n => n % size :: mixed_digits rest (n / size)

/-- Mixed-radix value of a fastest-first (digit, size) list. -/
def digits_val : List (Nat × Nat) → Nat
  | [] => 0
  | (i, s) :: rest => i + s * digits_val rest

/-! ### Grid enumeration (the product iterator in the prologue) -/

/-- Lexicographic enumeration of all grid index tuples, mirroring the
source's product of per-axis ranges, last axis fastest varying. -/
def grid_enum : List Nat → List (List Nat)
  | [] => [[]]
  | n :: rest => (List.range n).flatMap fun i => (grid_enum rest).map (i :: ·)

/-! ### Index maps and buffered operands -/

/-- Symbolic index-mapping expressions over grid axes.

Modelled from the spec: the source passes an arbitrary Python function
to a tracing-based analyzer; the spec's design notes direct implementers
to express the mapping in a restricted symbolic form that makes axis
usage syntactically evident, which is what this type provides. -/
inductive IExpr : Type
  | const : Int → IExpr
  | axis : Nat → IExpr
  | add : IExpr → IExpr → IExpr
  | mul : IExpr → IExpr → IExpr
  deriving DecidableEq, Repr

def IExpr.eval (indices : List Int) : IExpr → Int
  | .const c => c
  | .axis i => indices.getD i 0
  | .add a b => a.eval indices + b.eval indices
  | .mul a b => a.eval indices * b.eval indices

/-- Whether the expression syntactically mentions grid axis `j`. -/
def IExpr.uses_axis (j : Nat) : IExpr → Bool
  | .const _ => false
  | .axis i => i == j
  | .add a b => a.uses_axis j || b.uses_axis j
  | .mul a b => a.uses_axis j || b.uses_axis j

/-- Whether every axis the expression mentions is below `n`. -/
def IExpr.axes_below (n : Nat) : IExpr → Bool
  | .const _ => true
  | .axis i => i < n
  | .add a b => a.axes_below n && b.axes_below n
  | .mul a b => a.axes_below n && b.axes_below n

/-- Modelled from the spec: the index-usage analyzer (the source traces
the index map to a jaxpr with one scalar input per grid axis and
dead-code-eliminates it; that machinery is outside this file). Returns,
per grid axis, whether the mapping's output depends on that axis. -/
def uses_arguments (index_map : List IExpr) (num_axes : Nat) : List Bool :=
  (List.range num_axes).map fun i => index_map.any fun e => e.uses_axis i

/-- Block specification of one operand: the fixed block shape and the
symbolic index map. -/
structure BlockSpec : Type where
  block_shape : List Nat
  index_map : List IExpr
  deriving DecidableEq, Repr

/-- Embedding of the buffered-operand invariance analysis: true iff no
grid axis is reported as used by the analyzer. -/
def is_index_invariant (spec : BlockSpec) (grid : List Nat) : Bool :=
  !(uses_arguments spec.index_map grid.length).any id

/-- Evaluate the index map at concrete grid indices. -/
def eval_index_map (index_map : List IExpr) (grid_indices : List Nat) :
    List Int :=
  index_map.map fun e => e.eval (grid_indices.map Int.ofNat)

/-- Embedding of the buffered-operand slice computation: per dimension,
a (start, size) pair equal to (index_map output times block size,
block size). -/
def compute_gmem_slice (spec : BlockSpec) (grid_indices : List Nat) :
    List (Int × Int) :=
  List.zipWith (fun idx size => (idx * size, (size : Int)))
    (eval_index_map spec.index_map grid_indices)
    (spec.block_shape.map Int.ofNat)

/-- Embedding of the source's private slice record class, holding the
start and size of one dimension of the last issued store. -/
structure SliceRec : Type where
  start : Int
  size : Int
  deriving DecidableEq, Repr

/-- Embedding of the slice record's equality method: conjunction of the
start comparison and the size comparison. -/
def slice_eq (a b : SliceRec) : Bool :=
  (a.start == b.start) && (a.size == b.size)

/-! ### Pipeline scheduler as an event trace

The scheduler is a single sequential thread issuing asynchronous work;
we embed it as the list of scheduling events it issues, in program
order. Operands are identified by their position in the input
(respectively output) operand list. -/

inductive Event : Type
  | copy_gmem_to_smem (operand slot : Nat) (indices : List Nat)
  | copy_smem_to_gmem (operand slot : Nat) (indices : List Nat)
      (predicate : Option Bool)
  | barrier_wait (slot : Nat)
  | wait_smem_to_gmem (n : Nat)
  | commit_smem
  | run_body (slot : Nat) (indices : List Nat)
  deriving DecidableEq, Repr

/-- Static configuration of one pipeline build: the grid and the
operand lists. The configured buffering depth is a separate argument of
the builder, which rebinds it after clamping, mirroring the source. -/
structure PipelineConfig : Type where
  grid : List Nat
  in_specs : List BlockSpec
  out_specs : List BlockSpec
  deriving DecidableEq, Repr

/-- Per-output loop-carried records of the last issued store slices;
none for index-invariant outputs. -/
abbrev StoreRecs : Type := List (Option (List SliceRec))

/-- Loop carry: current grid indices and the per-output store records. -/
abbrev Carry : Type := List Nat × StoreRecs

/-- Sentinel record seeded before the loop for non-index-invariant
outputs: an out-of-range slice per block dimension. -/
def sentinel_slices (spec : BlockSpec) : List SliceRec :=
  List.replicate spec.block_shape.length ⟨-1, -1⟩

/-- The record stored by the loop for one output at the given indices:
slice records built from the freshly computed bulk-memory slice. -/
def store_slices (spec : BlockSpec) (indices : List Nat) : List SliceRec :=
  (compute_gmem_slice spec indices).map fun p => ⟨p.1, p.2⟩

/-- The elision comparison in the loop body: dimension-wise slice
equality folded with bitwise and, then negated. -/
def slices_changed (old news : List SliceRec) : Bool :=
  !(List.zipWith slice_eq old news).all id

/-- One output operand's treatment in the loop body: index-invariant
outputs are skipped; others compute the new destination slice, compare
it with the previous record, and issue a predicated copy out. -/
def out_step (grid : List Nat) (num_steps step slot : Nat)
    (indices : List Nat) (operand : Nat) (spec : BlockSpec)
    (old : Option (List SliceRec)) :
    List Event × Option (List SliceRec) :=
  if is_index_invariant spec grid then ([], old)
  else
    let news := store_slices spec indices
    let changed := slices_changed (old.getD []) news
    let is_last_step := step == num_steps - 1
    ([.copy_smem_to_gmem operand slot indices (some (changed || is_last_step))],
      some news)

/-- The loop over output operands, threading the operand position and
the per-output records. -/
def out_loop (grid : List Nat) (num_steps step slot : Nat)
    (indices : List Nat) :
    Nat → List BlockSpec → StoreRecs → List Event × StoreRecs
  | _, [], _ => ([], [])
  | _, _ :: _, [] => ([], [])
  | k, spec :: specs, old :: olds =>
      let r := out_step grid num_steps step slot indices k spec old
      let rest := out_loop grid num_steps step slot indices (k + 1) specs olds
      (r.1 ++ rest.1, r.2 :: rest.2)

/-- Embedding of the steady-state loop body: barrier wait (when inputs
exist), writeback throttle, kernel body, conditional commit, predicated
copies out for non-invariant outputs, conditional prefetch `depth`
steps ahead into the slot just freed, and the carry update. -/
def loop_body (cfg : PipelineConfig) (depth num_steps : Nat)
    (step : Nat) (carry : Carry) : List Event × Carry :=
  let slot := step % depth
  let indices := carry.1
  let wait_events :=
    (if cfg.in_specs ≠ [] then [Event.barrier_wait slot] else [])
      ++ [Event.wait_smem_to_gmem (depth - 1)]
  let body_events := [Event.run_body slot indices]
  let commit_events :=
    if !(cfg.out_specs.all fun spec => is_index_invariant spec cfg.grid)
    then [Event.commit_smem] else []
  let outs := out_loop cfg.grid num_steps step slot indices 0
      cfg.out_specs carry.2
  let fetch_events :=
    if step + depth < num_steps then
      (List.range cfg.in_specs.length).map fun k =>
        Event.copy_gmem_to_smem k slot (inc_grid indices cfg.grid depth)
    else []
  (wait_events ++ body_events ++ commit_events ++ outs.1 ++ fetch_events,
    (inc_grid indices cfg.grid 1, outs.2))

/-- Initial per-output records: none for index-invariant outputs, the
out-of-range sentinel otherwise. -/
def init_store_slices (cfg : PipelineConfig) : StoreRecs :=
  cfg.out_specs.map fun spec =>
    if is_index_invariant spec cfg.grid then none
    else some (sentinel_slices spec)

/-- Initial loop carry: all-zero indices and the initial records. -/
def init_carry (cfg : PipelineConfig) : Carry :=
  (List.replicate cfg.grid.length 0, init_store_slices cfg)

/-- The loop carry before step `s`, obtained by iterating the loop body
from the initial carry (the counted-loop semantics). -/
def carry_at (cfg : PipelineConfig) (depth num_steps : Nat) : Nat → Carry
  | 0 => init_carry cfg
  | s + 1 =>
      (loop_body cfg depth num_steps s (carry_at cfg depth num_steps s)).2

/-- Events issued by loop step `s`. -/
def step_events (cfg : PipelineConfig) (depth num_steps s : Nat) :
    List Event :=
  (loop_body cfg depth num_steps s (carry_at cfg depth num_steps s)).1

/-- Events issued by the whole counted loop, in program order. -/
def loop_trace (cfg : PipelineConfig) (depth num_steps : Nat) :
    List Event :=
  (List.range num_steps).flatMap fun s => step_events cfg depth num_steps s

/-- Embedding of the prologue: for each of the first `depth` index
tuples of the product enumeration, a copy in of every input operand
into the slot numbered by the step. -/
def prologue_trace (cfg : PipelineConfig) (depth : Nat) : List Event :=
  ((grid_enum cfg.grid).take depth).enum.flatMap fun si =>
    (List.range cfg.in_specs.length).map fun k =>
      Event.copy_gmem_to_smem k si.1 si.2

/-- Embedding of the epilogue: the deferred commit when every output is
index-invariant, one unconditional copy out per index-invariant output
from the last slot at the all-zero indices, and the final drain. -/
def epilogue_trace (cfg : PipelineConfig) (depth num_steps : Nat) :
    List Event :=
  (if cfg.out_specs.all (fun spec => is_index_invariant spec cfg.grid)
   then [Event.commit_smem] else [])
  ++ (cfg.out_specs.enum.filterMap fun ks =>
        if is_index_invariant ks.2 cfg.grid then
          some (Event.copy_smem_to_gmem ks.1 ((num_steps - 1) % depth)
            (List.replicate cfg.grid.length 0) none)
        else none)
  ++ [Event.wait_smem_to_gmem 0]

/-- Embedding of the scoped pipeline body: prologue, counted loop,
epilogue. -/
def scoped_pipeline_trace (cfg : PipelineConfig) (depth : Nat) :
    List Event :=
  prologue_trace cfg depth
    ++ loop_trace cfg depth cfg.grid.prod
    ++ epilogue_trace cfg depth cfg.grid.prod

/-- What building the pipeline produces: the scratch allocations, the
barrier allocation, and the event trace of one invocation. -/
structure PipelineBuild : Type where
  smem_shapes : List (List Nat)
  num_barriers : Nat
  barrier_arrivals : Nat
  trace : List Event
  deriving DecidableEq, Repr

/-- The buffering depth actually used: the configured value, shrunk to
the total number of steps when it exceeds it (the clamp at the top of
the pipeline builder). -/
def effective_depth (cfg : PipelineConfig)
    (max_concurrent_steps : Nat) : Nat :=
  if max_concurrent_steps > cfg.grid.prod then cfg.grid.prod
  else max_concurrent_steps

/-- Embedding of the pipeline builder: clamp the buffering depth to the
number of steps, allocate one scratch handle per operand sized by the
depth and the block shape, one barrier per slot expecting one arrival
per input, and run the scoped pipeline. -/
def emit_pipeline (cfg : PipelineConfig)
    (max_concurrent_steps : Nat) : PipelineBuild :=
  { smem_shapes :=
      (cfg.in_specs ++ cfg.out_specs).map fun spec =>
        effective_depth cfg max_concurrent_steps :: spec.block_shape
    num_barriers := effective_depth cfg max_concurrent_steps
    barrier_arrivals := cfg.in_specs.length
    trace := scoped_pipeline_trace cfg
      (effective_depth cfg max_concurrent_steps) }

/-! ### Derived notions used in the statements -/

/-- The grid indices of step `s`: the all-zero indices advanced `s`
steps. -/
def step_indices (grid : List Nat) (s : Nat) : List Nat :=
  inc_grid (List.replicate grid.length 0) grid s

/-- The destination record a non-index-invariant output holds on entry
to loop step `s`: the sentinel before the first step, the previous
step's stored slices afterwards. -/
def record_before (spec : BlockSpec) (grid : List Nat) (s : Nat) :
    List SliceRec :=
  if s = 0 then sentinel_slices spec
  else store_slices spec (step_indices grid (s - 1))

/-- Recognizer for inbound transfers. -/
def is_copy_in : Event → Bool
  | .copy_gmem_to_smem _ _ _ => true
  | _ => false

/-- Recognizer for outbound transfers. -/
def is_copy_out : Event → Bool
  | .copy_smem_to_gmem _ _ _ _ => true
  | _ => false

/-- Recognizer for outbound transfers of output operand `k`. -/
def is_copy_out_for (k : Nat) : Event → Bool
  | .copy_smem_to_gmem j _ _ _ => j == k
  | _ => false

/-- Recognizer for commits of scratch-memory writes. -/
def is_commit : Event → Bool
  | .commit_smem => true
  | _ => false

/-! ### Theorems -/

theorem inc_axis_eq_divmod (idx size : Nat) :
    inc_axis idx size = inc_axis_divmod idx size := by
  unfold inc_axis inc_axis_divmod
  by_cases h2 : idx < 2 * size
  · by_cases h1 : idx < size
    · simp only [if_pos h2, if_pos h1]
      rw [Nat.mod_eq_of_lt h1, Nat.div_eq_of_lt h1]
    · simp only [if_pos h2, if_neg h1]
      push_neg at h1
      have hmod : idx % size = idx - size := by
        rw [Nat.mod_eq_sub_mod h1]
        exact Nat.mod_eq_of_lt (by omega)
      have hdiv : idx / size = 1 :=
        Nat.div_eq_of_lt_le (by omega) (by omega)
      rw [hmod, hdiv]
  · simp [h2]

theorem inc_grid_loop_eq_divmod (l : List (Nat × Nat)) (carry : Nat) :
    inc_grid_loop l carry = inc_grid_loop_divmod l carry := by
  induction l generalizing carry with
  | nil => rfl
  | cons p rest ih =>
      obtain ⟨idx, size⟩ := p
      simp only [inc_grid_loop, inc_grid_loop_divmod, inc_axis_eq_divmod]
      rw [ih]

theorem inc_grid_eq_divmod (indices grid : List Nat) (steps : Nat) :
    inc_grid indices grid steps = inc_grid_divmod indices grid steps := by
  unfold inc_grid inc_grid_divmod
  rw [inc_grid_loop_eq_divmod]

theorem inc_grid_loop_divmod_length (l : List (Nat × Nat)) (carry : Nat) :
    (inc_grid_loop_divmod l carry).length = l.length := by
  induction l generalizing carry with
  | nil => rfl
  | cons p rest ih =>
      obtain ⟨idx, size⟩ := p
      simp [inc_grid_loop_divmod, ih]

theorem inc_grid_length (indices grid : List Nat) (steps : Nat)
    (h : indices.length = grid.length) :
    (inc_grid indices grid steps).length = grid.length := by
  rw [inc_grid_eq_divmod]
  unfold inc_grid_divmod
  rw [List.length_reverse, inc_grid_loop_divmod_length, List.length_reverse,
    List.length_zip, h, Nat.min_self]

/-- Core additivity of the carry loop: advancing the fastest-first digit
list by `a` and then by `b` is advancing it by `a + b`, provided every
digit starts in range. -/
theorem inc_grid_loop_divmod_add (l : List (Nat × Nat))
    (h : ∀ p ∈ l, p.1 < p.2) (a b : Nat) :
    inc_grid_loop_divmod
        ((inc_grid_loop_divmod l a).zip (l.map Prod.snd)) b
      = inc_grid_loop_divmod l (a + b) := by
  induction l generalizing a b with
  | nil => rfl
  | cons p rest ih =>
      obtain ⟨i, s⟩ := p
      have hi : i < s := h (i, s) (List.mem_cons_self _ _)
      have hs : 0 < s := Nat.lt_of_le_of_lt (Nat.zero_le i) hi
      have hrest : ∀ q ∈ rest, q.1 < q.2 := fun q hq =>
        h q (List.mem_cons_of_mem _ hq)
      have key : i + a + b = s * ((i + a) / s) + ((i + a) % s + b) := by
        have := Nat.div_add_mod (i + a) s
        omega
      have ih' := ih hrest ((i + a) / s) (((i + a) % s + b) / s)
      unfold List.zip at ih'
      simp only [inc_grid_loop_divmod, inc_axis_divmod, List.map_cons,
        List.zip_cons_cons]
      rw [ih']
      simp only [List.cons.injEq]
      constructor
      · show ((i + a) % s + b) % s = (i + (a + b)) % s
        have : (i + (a + b)) = s * ((i + a) / s) + ((i + a) % s + b) := by
          omega
        rw [this, Nat.mul_add_mod]
      · show inc_grid_loop_divmod rest ((i + a) / s + ((i + a) % s + b) / s)
            = inc_grid_loop_divmod rest ((i + (a + b)) / s)
        have : (i + (a + b)) / s = (i + a) / s + ((i + a) % s + b) / s := by
          have h1 : (i + (a + b)) = s * ((i + a) / s) + ((i + a) % s + b) := by
            omega
          rw [h1, Nat.mul_add_div hs]
        rw [this]

theorem reverse_zip_of_length_eq {α β : Type} (xs : List α) (ys : List β)
    (h : xs.length = ys.length) :
    (xs.zip ys).reverse = xs.reverse.zip ys.reverse := by
  induction xs generalizing ys with
  | nil =>
      cases ys with
      | nil => rfl
      | cons y ys => simp at h
  | cons x xs ih =>
      cases ys with
      | nil => simp at h
      | cons y ys =>
          have hlen : xs.length = ys.length := by simpa using h
          simp only [List.zip_cons_cons, List.reverse_cons]
          rw [ih ys hlen, List.zip_append (by simp [hlen])]
          rfl

theorem map_snd_reversed_zip (indices grid : List Nat)
    (hlen : indices.length = grid.length) :
    ((indices.zip grid).reverse).map Prod.snd = grid.reverse := by
  rw [List.map_reverse, List.map_snd_zip indices grid (le_of_eq hlen.symm)]

/-- Additivity of the grid increment, stated on the reversed pair list
the source iterates over and lifted to the top-level function. -/
theorem inc_grid_add_aux (indices grid : List Nat)
    (hlen : indices.length = grid.length)
    (hin : ∀ p ∈ indices.zip grid, p.1 < p.2) (a b : Nat) :
    inc_grid (inc_grid indices grid a) grid b
      = inc_grid indices grid (a + b) := by
  have hrev : ∀ p ∈ (indices.zip grid).reverse, p.1 < p.2 := by
    intro p hp
    exact hin p (List.mem_reverse.mp hp)
  have hXlen : (inc_grid_loop_divmod ((indices.zip grid).reverse) a).length
      = grid.length := by
    rw [inc_grid_loop_divmod_length, List.length_reverse, List.length_zip,
      hlen, Nat.min_self]
  rw [inc_grid_eq_divmod indices grid a, inc_grid_eq_divmod, inc_grid_eq_divmod]
  unfold inc_grid_divmod
  rw [reverse_zip_of_length_eq _ grid (by rw [List.length_reverse]; exact hXlen),
    List.reverse_reverse, ← map_snd_reversed_zip indices grid hlen,
    inc_grid_loop_divmod_add _ hrev a b]

theorem inc_grid_loop_divmod_eq_mixed_digits (l : List (Nat × Nat))
    (h : ∀ p ∈ l, 0 < p.2) (c : Nat) :
    inc_grid_loop_divmod l c
      = mixed_digits (l.map Prod.snd) (digits_val l + c) := by
  induction l generalizing c with
  | nil => rfl
  | cons p rest ih =>
      obtain ⟨i, s⟩ := p
      have hs : 0 < s := h (i, s) (List.mem_cons_self _ _)
      have hrest : ∀ q ∈ rest, 0 < q.2 := fun q hq =>
        h q (List.mem_cons_of_mem _ hq)
      simp only [inc_grid_loop_divmod, inc_axis_divmod, List.map_cons,
        digits_val, mixed_digits]
      rw [ih hrest]
      simp only [List.cons.injEq]
      constructor
      · have hkey : i + s * digits_val rest + c
            = s * digits_val rest + (i + c) := by omega
        rw [hkey, Nat.mul_add_mod]
      · have hkey : i + s * digits_val rest + c
            = s * digits_val rest + (i + c) := by omega
        rw [hkey, Nat.mul_add_div hs]

theorem digits_val_zeros (l : List (Nat × Nat))
    (h : ∀ p ∈ l, p.1 = 0) : digits_val l = 0 := by
  induction l with
  | nil => rfl
  | cons p rest ih =>
      obtain ⟨i, s⟩ := p
      have hi : i = 0 := h (i, s) (List.mem_cons_self _ _)
      have := ih (fun q hq => h q (List.mem_cons_of_mem _ hq))
      simp [digits_val, hi, this]

/-- Advancing the all-zero indices by `s` steps yields the mixed-radix
digits of `s`, fastest axis last. -/
theorem inc_grid_zeros (grid : List Nat) (hpos : ∀ g ∈ grid, 0 < g)
    (s : Nat) :
    inc_grid (List.replicate grid.length 0) grid s
      = (mixed_digits grid.reverse s).reverse := by
  rw [inc_grid_eq_divmod]
  unfold inc_grid_divmod
  have hzip : ∀ p ∈ ((List.replicate grid.length 0).zip grid).reverse,
      p.1 = 0 ∧ 0 < p.2 := by
    intro p hp
    obtain ⟨i, g⟩ := p
    have hmem := List.mem_reverse.mp hp
    obtain ⟨hi, hg⟩ := List.of_mem_zip hmem
    exact ⟨List.eq_of_mem_replicate hi, hpos g hg⟩
  rw [inc_grid_loop_divmod_eq_mixed_digits _ (fun p hp => (hzip p hp).2),
    digits_val_zeros _ (fun p hp => (hzip p hp).1),
    map_snd_reversed_zip _ _ (by simp), Nat.zero_add]

theorem mixed_digits_append (xs ys : List Nat) (n : Nat) :
    mixed_digits (xs ++ ys) n
      = mixed_digits xs n ++ mixed_digits ys (n / xs.prod) := by
  induction xs generalizing n with
  | nil => simp [mixed_digits]
  | cons x xs ih =>
      simp [mixed_digits, ih, Nat.div_div_eq_div_mul]

theorem mixed_digits_add_mul_prod (xs : List Nat) (a b : Nat) :
    mixed_digits xs (a * xs.prod + b) = mixed_digits xs b := by
  induction xs generalizing a b with
  | nil => rfl
  | cons x xs ih =>
      by_cases hx : x = 0
      · subst hx
        simp [mixed_digits]
      · have hxpos : 0 < x := Nat.pos_of_ne_zero hx
        simp only [mixed_digits, List.prod_cons]
        have hkey : a * (x * xs.prod) + b = x * (a * xs.prod) + b := by ring
        rw [hkey, Nat.mul_add_mod, Nat.mul_add_div hxpos, ih]

theorem range_mul_flatMap (g p : Nat) :
    List.range (g * p)
      = (List.range g).flatMap fun i => (List.range p).map fun j => i * p + j := by
  induction g with
  | zero => simp
  | succ g ih =>
      rw [Nat.succ_mul, List.range_add, ih, List.range_succ,
        List.flatMap_append]
      simp

theorem flatMap_congr_mem {α β : Type} (l : List α) (f g : α → List β)
    (h : ∀ a ∈ l, f a = g a) : l.flatMap f = l.flatMap g := by
  induction l with
  | nil => rfl
  | cons a l ih =>
      simp only [List.flatMap_cons]
      rw [h a (List.mem_cons_self _ _),
        ih (fun a ha => h a (List.mem_cons_of_mem _ ha))]

/-- The product enumeration is exactly the list of reversed mixed-radix
digit strings of 0, 1, ..., product - 1. -/
theorem grid_enum_eq (grid : List Nat) :
    grid_enum grid
      = (List.range grid.prod).map
          fun s => (mixed_digits grid.reverse s).reverse := by
  induction grid with
  | nil => simp [grid_enum, mixed_digits]
  | cons g rest ih =>
      simp only [grid_enum, ih, List.prod_cons]
      rw [range_mul_flatMap g rest.prod]
      rw [List.map_flatMap]
      apply flatMap_congr_mem
      intro i hi
      have hig : i < g := List.mem_range.mp hi
      rw [List.map_map, List.map_map]
      apply List.map_congr_left
      intro j hj
      have hjp : j < rest.prod := List.mem_range.mp hj
      simp only [Function.comp]
      have hrev : (g :: rest).reverse = rest.reverse ++ [g] := by simp
      rw [hrev, mixed_digits_append, List.reverse_append]
      have hpr : rest.reverse.prod = rest.prod := List.prod_reverse rest
      have hdigits : mixed_digits rest.reverse (i * rest.prod + j)
          = mixed_digits rest.reverse j := by
        conv_lhs => rw [← hpr]
        exact mixed_digits_add_mul_prod rest.reverse i j
      have hdiv : (i * rest.prod + j) / rest.reverse.prod = i := by
        rw [hpr]
        have hp : 0 < rest.prod := Nat.pos_of_ne_zero (by omega)
        rw [Nat.mul_comm i rest.prod, Nat.mul_add_div hp,
          Nat.div_eq_of_lt hjp]
        omega
      rw [hdigits, hdiv]
      simp only [mixed_digits, List.reverse_cons, List.reverse_nil,
        List.nil_append]
      rw [Nat.mod_eq_of_lt hig]
      rfl

theorem grid_enum_length (grid : List Nat) :
    (grid_enum grid).length = grid.prod := by
  rw [grid_enum_eq, List.length_map, List.length_range]

theorem eval_constant_of_no_axis_use (e : IExpr) (n : Nat)
    (hwf : e.axes_below n = true)
    (hun : ∀ i < n, e.uses_axis i = false) (xs ys : List Int) :
    e.eval xs = e.eval ys := by
  induction e with
  | const c => rfl
  | axis i =>
      exfalso
      have hi : i < n := by simpa [IExpr.axes_below] using hwf
      have := hun i hi
      simp [IExpr.uses_axis] at this
  | add a b iha ihb =>
      simp only [IExpr.axes_below, Bool.and_eq_true] at hwf
      have hau : ∀ i < n, a.uses_axis i = false := by
        intro i hi
        have := hun i hi
        simp only [IExpr.uses_axis, Bool.or_eq_false_iff] at this
        exact this.1
      have hbu : ∀ i < n, b.uses_axis i = false := by
        intro i hi
        have := hun i hi
        simp only [IExpr.uses_axis, Bool.or_eq_false_iff] at this
        exact this.2
      simp [IExpr.eval, iha hwf.1 hau, ihb hwf.2 hbu]
  | mul a b iha ihb =>
      simp only [IExpr.axes_below, Bool.and_eq_true] at hwf
      have hau : ∀ i < n, a.uses_axis i = false := by
        intro i hi
        have := hun i hi
        simp only [IExpr.uses_axis, Bool.or_eq_false_iff] at this
        exact this.1
      have hbu : ∀ i < n, b.uses_axis i = false := by
        intro i hi
        have := hun i hi
        simp only [IExpr.uses_axis, Bool.or_eq_false_iff] at this
        exact this.2
      simp [IExpr.eval, iha hwf.1 hau, ihb hwf.2 hbu]

/-! ### Counting inbound transfers -/

theorem out_loop_countP_copy_in (grid : List Nat)
    (num_steps step slot : Nat) (indices : List Nat) (k : Nat)
    (specs : List BlockSpec) (olds : StoreRecs) :
    List.countP is_copy_in
      (out_loop grid num_steps step slot indices k specs olds).1 = 0 := by
  induction specs generalizing k olds with
  | nil => rfl
  | cons spec specs ih =>
      cases olds with
      | nil => rfl
      | cons old olds =>
          simp only [out_loop, List.countP_append]
          rw [ih]
          unfold out_step
          split_ifs <;> simp [is_copy_in]

theorem loop_body_countP_copy_in (cfg : PipelineConfig)
    (depth num_steps step : Nat) (c : Carry) :
    List.countP is_copy_in (loop_body cfg depth num_steps step c).1
      = if step + depth < num_steps then cfg.in_specs.length else 0 := by
  unfold loop_body
  simp only [List.countP_append]
  rw [out_loop_countP_copy_in]
  have h1 : List.countP is_copy_in
      (if cfg.in_specs ≠ [] then [Event.barrier_wait (step % depth)]
       else []) = 0 := by
    split_ifs <;> simp [is_copy_in]
  have h2 : List.countP is_copy_in
      (if !(cfg.out_specs.all fun spec => is_index_invariant spec cfg.grid)
       then [Event.commit_smem] else []) = 0 := by
    split_ifs <;> simp [is_copy_in]
  have h3 : List.countP is_copy_in
      (if step + depth < num_steps then
        (List.range cfg.in_specs.length).map fun k =>
          Event.copy_gmem_to_smem k (step % depth)
            (inc_grid c.1 cfg.grid depth)
       else [])
      = if step + depth < num_steps then cfg.in_specs.length else 0 := by
    split_ifs
    · rw [List.countP_map]
      have : (is_copy_in ∘ fun k =>
          Event.copy_gmem_to_smem k (step % depth)
            (inc_grid c.1 cfg.grid depth)) = fun _ => true := by
        funext k
        rfl
      rw [this, List.countP_true, List.length_range]
    · rfl
  rw [h1, h2, h3]
  simp [is_copy_in]

theorem sum_map_range_ite (n m k : Nat) :
    ((List.range n).map fun s => if s < m then k else 0).sum
      = min m n * k := by
  induction n with
  | zero => simp
  | succ n ih =>
      rw [List.range_succ, List.map_append, List.sum_append, ih]
      by_cases h : n < m
      · have h1 : min m n = n := by omega
        have h2 : min m (n + 1) = n + 1 := by omega
        simp [h, h1, h2, Nat.succ_mul]
      · have h1 : min m n = m := by omega
        have h2 : min m (n + 1) = m := by omega
        simp [h, h1, h2]

theorem loop_trace_countP_copy_in (cfg : PipelineConfig)
    (depth num_steps : Nat) :
    List.countP is_copy_in (loop_trace cfg depth num_steps)
      = (num_steps - depth) * cfg.in_specs.length := by
  unfold loop_trace
  rw [List.countP_flatMap]
  have hmap : (List.range num_steps).map
        (List.countP is_copy_in ∘ fun s =>
          step_events cfg depth num_steps s)
      = (List.range num_steps).map
        fun s => if s < num_steps - depth then cfg.in_specs.length
                 else 0 := by
    apply List.map_congr_left
    intro s _
    show List.countP is_copy_in (step_events cfg depth num_steps s) = _
    unfold step_events
    rw [loop_body_countP_copy_in]
    split_ifs <;> omega
  rw [hmap, sum_map_range_ite]
  congr 1
  omega

theorem prologue_countP_copy_in (cfg : PipelineConfig) (depth : Nat) :
    List.countP is_copy_in (prologue_trace cfg depth)
      = min depth cfg.grid.prod * cfg.in_specs.length := by
  unfold prologue_trace
  rw [List.countP_flatMap]
  have hmap : ((grid_enum cfg.grid).take depth).enum.map
        (List.countP is_copy_in ∘ fun si =>
          (List.range cfg.in_specs.length).map fun k =>
            Event.copy_gmem_to_smem k si.1 si.2)
      = ((grid_enum cfg.grid).take depth).enum.map
          fun _ => cfg.in_specs.length := by
    apply List.map_congr_left
    intro si _
    show List.countP is_copy_in
        ((List.range cfg.in_specs.length).map fun k =>
          Event.copy_gmem_to_smem k si.1 si.2) = _
    rw [List.countP_map]
    have : (is_copy_in ∘ fun k =>
        Event.copy_gmem_to_smem k si.1 si.2) = fun _ => true := by
      funext k
      rfl
    rw [this, List.countP_true, List.length_range]
  rw [hmap, List.map_const', List.sum_replicate, smul_eq_mul]
  congr 1
  rw [List.enum_length, List.length_take, grid_enum_length]

theorem epilogue_countP_copy_in (cfg : PipelineConfig)
    (depth num_steps : Nat) :
    List.countP is_copy_in (epilogue_trace cfg depth num_steps) = 0 := by
  unfold epilogue_trace
  simp only [List.countP_append]
  have h1 : List.countP is_copy_in
      (if cfg.out_specs.all (fun spec => is_index_invariant spec cfg.grid)
       then [Event.commit_smem] else []) = 0 := by
    split_ifs <;> simp [is_copy_in]
  have h2 : List.countP is_copy_in
      (cfg.out_specs.enum.filterMap fun ks =>
        if is_index_invariant ks.2 cfg.grid then
          some (Event.copy_smem_to_gmem ks.1 ((num_steps - 1) % depth)
            (List.replicate cfg.grid.length 0) none)
        else none) = 0 := by
    rw [List.countP_eq_zero]
    intro a ha
    rw [List.mem_filterMap] at ha
    obtain ⟨ks, _, hfa⟩ := ha
    by_cases h : is_index_invariant ks.2 cfg.grid
    · simp only [h, if_true, Option.some.injEq] at hfa
      subst hfa
      simp [is_copy_in]
    · simp [h] at hfa
  rw [h1, h2]
  simp [is_copy_in]

/-! ### Prologue characterization -/

theorem zip_self_eq_map {α : Type} (l : List α) :
    l.zip l = l.map fun a => (a, a) := by
  induction l with
  | nil => rfl
  | cons a l ih =>
      simp only [List.zip_cons_cons, List.map_cons, List.cons.injEq]
      exact ⟨trivial, ih⟩

theorem prod_pos_entries (grid : List Nat) (h : 0 < grid.prod) :
    ∀ g ∈ grid, 0 < g := by
  intro g hg
  rcases Nat.eq_zero_or_pos g with h0 | h0
  · exfalso
    have : grid.prod = 0 := List.prod_eq_zero (h0 ▸ hg)
    omega
  · exact h0

theorem prologue_characterization (cfg : PipelineConfig) (depth : Nat) :
    prologue_trace cfg depth
      = (List.range (min depth cfg.grid.prod)).flatMap fun s =>
          (List.range cfg.in_specs.length).map fun k =>
            Event.copy_gmem_to_smem k s (step_indices cfg.grid s) := by
  unfold prologue_trace
  rw [grid_enum_eq, ← List.map_take, List.take_range, List.enum_map,
    List.enum_eq_zip_range, List.length_range, zip_self_eq_map,
    List.map_map, List.flatMap_map]
  apply flatMap_congr_mem
  intro s hs
  have hsn : s < cfg.grid.prod :=
    lt_of_lt_of_le (List.mem_range.mp hs) (min_le_right _ _)
  have hpos : ∀ g ∈ cfg.grid, 0 < g :=
    prod_pos_entries cfg.grid (by omega)
  have hF : (mixed_digits cfg.grid.reverse s).reverse
      = step_indices cfg.grid s := by
    rw [step_indices, inc_grid_zeros cfg.grid hpos s]
  simp only [Function.comp, Prod.map, id]
  rw [hF]

/-! ### Slice structure lemmas -/

theorem zipWith_pair_map_snd (xs ys : List Int)
    (h : xs.length = ys.length) :
    (List.zipWith (fun idx size => (idx * size, size)) xs ys).map Prod.snd
      = ys := by
  induction xs generalizing ys with
  | nil =>
      cases ys with
      | nil => rfl
      | cons y ys => simp at h
  | cons x xs ih =>
      cases ys with
      | nil => simp at h
      | cons y ys =>
          simp only [List.zipWith_cons_cons, List.map_cons, List.cons.injEq]
          exact ⟨trivial, ih ys (by simpa using h)⟩

theorem compute_gmem_slice_sizes (spec : BlockSpec)
    (h : spec.index_map.length = spec.block_shape.length)
    (indices : List Nat) :
    (compute_gmem_slice spec indices).map Prod.snd
      = spec.block_shape.map Int.ofNat := by
  unfold compute_gmem_slice
  apply zipWith_pair_map_snd
  rw [eval_index_map, List.length_map, List.length_map, h]

theorem store_slices_map_size (spec : BlockSpec) (indices : List Nat) :
    (store_slices spec indices).map SliceRec.size
      = (compute_gmem_slice spec indices).map Prod.snd := by
  unfold store_slices
  rw [List.map_map]
  rfl

theorem store_slices_map_start (spec : BlockSpec) (indices : List Nat) :
    (store_slices spec indices).map SliceRec.start
      = (compute_gmem_slice spec indices).map Prod.fst := by
  unfold store_slices
  rw [List.map_map]
  rfl

theorem slices_changed_iff_starts (A B : List SliceRec)
    (hsz : A.map SliceRec.size = B.map SliceRec.size) :
    slices_changed A B = true
      ↔ A.map SliceRec.start ≠ B.map SliceRec.start := by
  induction A generalizing B with
  | nil =>
      cases B with
      | nil => simp [slices_changed]
      | cons b B => simp at hsz
  | cons a A ih =>
      cases B with
      | nil => simp at hsz
      | cons b B =>
          simp only [List.map_cons, List.cons.injEq] at hsz
          obtain ⟨hs, hrest⟩ := hsz
          have hsz' : (a.size == b.size) = true := by simp [hs]
          have hsc : slices_changed (a :: A) (b :: B)
              = (!(a.start == b.start) || slices_changed A B) := by
            simp [slices_changed, slice_eq, hsz', Bool.not_and]
          rw [hsc]
          simp only [Bool.or_eq_true, Bool.not_eq_true', beq_eq_false_iff_ne,
            ih B hrest, List.map_cons, ne_eq, List.cons.injEq, not_and_or]

/-! ### Output-loop characterization and the loop-carry invariant -/

theorem out_loop_filter_below (grid : List Nat)
    (num_steps step slot : Nat) (indices : List Nat) (t : Nat) :
    ∀ (k : Nat) (specs : List BlockSpec) (olds : StoreRecs), t < k →
    List.filter (is_copy_out_for t)
      (out_loop grid num_steps step slot indices k specs olds).1 = [] := by
  intro k specs
  induction specs generalizing k with
  | nil => intro olds _; rfl
  | cons sp specs ih =>
      intro olds ht
      cases olds with
      | nil => rfl
      | cons old olds =>
          simp only [out_loop, List.filter_append]
          rw [ih (k + 1) olds (by omega)]
          unfold out_step
          split_ifs
          · rfl
          · simp only [List.filter_cons, List.filter_nil]
            have : is_copy_out_for t
                (Event.copy_smem_to_gmem k slot indices
                  (some (slices_changed (old.getD [])
                      (store_slices sp indices)
                    || (step == num_steps - 1)))) = false := by
              simp only [is_copy_out_for, beq_eq_false_iff_ne]
              omega
            simp [this]

theorem out_loop_filter_invariant (grid : List Nat)
    (num_steps step slot : Nat) (indices : List Nat) (spec : BlockSpec)
    (hinv : is_index_invariant spec grid = true) :
    ∀ (t k : Nat) (specs : List BlockSpec) (olds : StoreRecs),
    specs[t]? = some spec →
    List.filter (is_copy_out_for (k + t))
      (out_loop grid num_steps step slot indices k specs olds).1 = [] := by
  intro t
  induction t with
  | zero =>
      intro k specs olds hk
      cases specs with
      | nil => simp at hk
      | cons sp specs =>
          rw [List.getElem?_cons_zero, Option.some.injEq] at hk
          subst hk
          cases olds with
          | nil => rfl
          | cons old olds =>
              simp only [out_loop, List.filter_append]
              rw [out_loop_filter_below grid num_steps step slot indices
                (k + 0) (k + 1) specs olds (by omega)]
              unfold out_step
              rw [if_pos hinv]
              rfl
  | succ t ih =>
      intro k specs olds hk
      cases specs with
      | nil => simp at hk
      | cons sp specs =>
          rw [List.getElem?_cons_succ] at hk
          cases olds with
          | nil => rfl
          | cons old olds =>
              simp only [out_loop, List.filter_append]
              have hrest := ih (k + 1) specs olds hk
              have harith : k + 1 + t = k + (t + 1) := by omega
              rw [harith] at hrest
              rw [hrest]
              unfold out_step
              split_ifs
              · rfl
              · simp only [List.filter_cons, List.filter_nil]
                have : is_copy_out_for (k + (t + 1))
                    (Event.copy_smem_to_gmem k slot indices
                      (some (slices_changed (old.getD [])
                          (store_slices sp indices)
                        || (step == num_steps - 1)))) = false := by
                  simp only [is_copy_out_for, beq_eq_false_iff_ne]
                  omega
                simp [this]

theorem out_loop_filter_target (grid : List Nat)
    (num_steps step slot : Nat) (indices : List Nat) (spec : BlockSpec)
    (old : Option (List SliceRec))
    (hninv : is_index_invariant spec grid = false) :
    ∀ (t k : Nat) (specs : List BlockSpec) (olds : StoreRecs),
    specs[t]? = some spec → olds[t]? = some old →
    List.filter (is_copy_out_for (k + t))
      (out_loop grid num_steps step slot indices k specs olds).1
      = [Event.copy_smem_to_gmem (k + t) slot indices
          (some (slices_changed (old.getD [])
              (store_slices spec indices)
            || (step == num_steps - 1)))] := by
  intro t
  induction t with
  | zero =>
      intro k specs olds hk hold
      cases specs with
      | nil => simp at hk
      | cons sp specs =>
          cases olds with
          | nil => simp at hold
          | cons o olds =>
              rw [List.getElem?_cons_zero, Option.some.injEq] at hk hold
              subst hk
              subst hold
              simp only [out_loop, List.filter_append]
              rw [out_loop_filter_below grid num_steps step slot indices
                (k + 0) (k + 1) specs olds (by omega)]
              unfold out_step
              rw [if_neg (by rw [hninv]; exact Bool.false_ne_true)]
              simp [is_copy_out_for]
  | succ t ih =>
      intro k specs olds hk hold
      cases specs with
      | nil => simp at hk
      | cons sp specs =>
          cases olds with
          | nil => simp at hold
          | cons o olds =>
              rw [List.getElem?_cons_succ] at hk hold
              simp only [out_loop, List.filter_append]
              have hrest := ih (k + 1) specs olds hk hold
              have harith : k + 1 + t = k + (t + 1) := by omega
              rw [harith] at hrest
              rw [hrest]
              unfold out_step
              split_ifs
              · rfl
              · simp only [List.filter_cons, List.filter_nil]
                have : is_copy_out_for (k + (t + 1))
                    (Event.copy_smem_to_gmem k slot indices
                      (some (slices_changed (o.getD [])
                          (store_slices sp indices)
                        || (step == num_steps - 1)))) = false := by
                  simp only [is_copy_out_for, beq_eq_false_iff_ne]
                  omega
                simp [this]

theorem out_loop_records_map (grid : List Nat)
    (num_steps step slot : Nat) (indices : List Nat)
    (F : BlockSpec → Option (List SliceRec)) :
    ∀ (k : Nat) (specs : List BlockSpec),
    (out_loop grid num_steps step slot indices k specs (specs.map F)).2
      = specs.map fun spec =>
          if is_index_invariant spec grid then F spec
          else some (store_slices spec indices) := by
  intro k specs
  induction specs generalizing k with
  | nil => rfl
  | cons sp specs ih =>
      simp only [List.map_cons, out_loop]
      rw [ih (k + 1)]
      unfold out_step
      split_ifs with h
      · simp [h]
      · simp [h]

/-! ### The loop-carry invariant -/

theorem mixed_digits_zero (xs : List Nat) :
    mixed_digits xs 0 = List.replicate xs.length 0 := by
  induction xs with
  | nil => rfl
  | cons x xs ih =>
      simp [mixed_digits, Nat.zero_mod, Nat.zero_div, ih, List.replicate_succ]

theorem step_indices_zero (grid : List Nat) (hpos : ∀ g ∈ grid, 0 < g) :
    step_indices grid 0 = List.replicate grid.length 0 := by
  rw [step_indices, inc_grid_zeros grid hpos 0, mixed_digits_zero,
    List.length_reverse, List.reverse_replicate]

theorem replicate_zip_in_range (grid : List Nat)
    (hpos : ∀ g ∈ grid, 0 < g) :
    ∀ p ∈ (List.replicate grid.length 0).zip grid, p.1 < p.2 := by
  intro p hp
  obtain ⟨i, g⟩ := p
  obtain ⟨hi, hg⟩ := List.of_mem_zip hp
  have : i = 0 := List.eq_of_mem_replicate hi
  subst this
  exact hpos g hg

theorem step_indices_succ (grid : List Nat) (hpos : ∀ g ∈ grid, 0 < g)
    (s : Nat) :
    inc_grid (step_indices grid s) grid 1 = step_indices grid (s + 1) := by
  unfold step_indices
  exact inc_grid_add_aux (List.replicate grid.length 0) grid
    (List.length_replicate _ _) (replicate_zip_in_range grid hpos) s 1

theorem carry_at_spec (cfg : PipelineConfig) (depth num_steps : Nat)
    (hpos : ∀ g ∈ cfg.grid, 0 < g) (s : Nat) :
    carry_at cfg depth num_steps s
      = (step_indices cfg.grid s,
         cfg.out_specs.map fun spec =>
           if is_index_invariant spec cfg.grid then none
           else some (record_before spec cfg.grid s)) := by
  induction s with
  | zero =>
      unfold carry_at init_carry init_store_slices
      rw [step_indices_zero cfg.grid hpos]
      refine Prod.ext rfl ?_
      show init_store_slices cfg = _
      unfold init_store_slices
      apply List.map_congr_left
      intro spec _
      by_cases h : is_index_invariant spec cfg.grid
      · simp [h]
      · simp [h, record_before]
  | succ s ih =>
      show (loop_body cfg depth num_steps s
          (carry_at cfg depth num_steps s)).2 = _
      rw [ih]
      unfold loop_body
      simp only
      refine Prod.ext ?_ ?_
      · show inc_grid (step_indices cfg.grid s) cfg.grid 1 = _
        rw [step_indices_succ cfg.grid hpos s]
      · show (out_loop cfg.grid num_steps s (s % depth)
            (step_indices cfg.grid s) 0 cfg.out_specs
            (cfg.out_specs.map fun spec =>
              if is_index_invariant spec cfg.grid then none
              else some (record_before spec cfg.grid s))).2 = _
        rw [out_loop_records_map]
        apply List.map_congr_left
        intro spec _
        by_cases h : is_index_invariant spec cfg.grid
        · simp [h]
        · simp [h, record_before]

theorem slices_changed_sentinel (spec : BlockSpec) (indices : List Nat)
    (hbpos : ∀ b ∈ spec.block_shape, 0 < b)
    (him : spec.index_map ≠ []) (hbs : spec.block_shape ≠ []) :
    slices_changed (sentinel_slices spec)
      (store_slices spec indices) = true := by
  rcases hbs0 : spec.block_shape with _ | ⟨b, bs⟩
  · exact absurd hbs0 hbs
  rcases him0 : spec.index_map with _ | ⟨e, im⟩
  · exact absurd him0 him
  have hb : 0 < b := hbpos b (by rw [hbs0]; exact List.mem_cons_self _ _)
  have hhead : ((-1 : Int) == (b : Int)) = false := by
    rw [beq_eq_false_iff_ne]
    intro hcontra
    omega
  unfold slices_changed sentinel_slices store_slices compute_gmem_slice
    eval_index_map
  rw [hbs0, him0]
  simp only [List.length_cons, List.replicate_succ, List.map_cons,
    List.zipWith_cons_cons, List.all_cons]
  simp [slice_eq, hhead]

/-! ### Filtering the trace for one output operand -/

theorem flatMap_const_nil {α β : Type} (l : List α) :
    (l.flatMap fun _ => ([] : List β)) = [] := by
  induction l with
  | nil => rfl
  | cons a l ih => simp [List.flatMap_cons, ih]

theorem prologue_filter_copy_out (cfg : PipelineConfig) (depth t : Nat) :
    List.filter (is_copy_out_for t) (prologue_trace cfg depth) = [] := by
  rw [List.filter_eq_nil_iff]
  intro a ha
  unfold prologue_trace at ha
  rw [List.mem_flatMap] at ha
  obtain ⟨si, _, hsi⟩ := ha
  rw [List.mem_map] at hsi
  obtain ⟨k, _, hka⟩ := hsi
  subst hka
  simp [is_copy_out_for]

theorem loop_body_filter_out (cfg : PipelineConfig)
    (depth num_steps s t : Nat) (c : Carry) :
    List.filter (is_copy_out_for t) (loop_body cfg depth num_steps s c).1
      = List.filter (is_copy_out_for t)
          (out_loop cfg.grid num_steps s (s % depth) c.1 0
            cfg.out_specs c.2).1 := by
  unfold loop_body
  simp only [List.filter_append]
  have h1 : List.filter (is_copy_out_for t)
      (if cfg.in_specs ≠ [] then [Event.barrier_wait (s % depth)]
       else []) = [] := by
    split_ifs <;> simp [is_copy_out_for]
  have h2 : List.filter (is_copy_out_for t)
      [Event.wait_smem_to_gmem (depth - 1)] = [] := by
    simp [is_copy_out_for]
  have h3 : List.filter (is_copy_out_for t)
      [Event.run_body (s % depth) c.1] = [] := by
    simp [is_copy_out_for]
  have h4 : List.filter (is_copy_out_for t)
      (if !(cfg.out_specs.all fun sp => is_index_invariant sp cfg.grid)
       then [Event.commit_smem] else []) = [] := by
    split_ifs <;> simp [is_copy_out_for]
  have h5 : List.filter (is_copy_out_for t)
      (if s + depth < num_steps then
        (List.range cfg.in_specs.length).map fun k =>
          Event.copy_gmem_to_smem k (s % depth)
            (inc_grid c.1 cfg.grid depth)
       else []) = [] := by
    split_ifs
    · rw [List.filter_eq_nil_iff]
      intro a ha
      rw [List.mem_map] at ha
      obtain ⟨k, _, hka⟩ := ha
      subst hka
      simp [is_copy_out_for]
    · rfl
  rw [h1, h2, h3, h4, h5]
  simp only [List.nil_append, List.append_nil]

theorem epilogue_filterMap_below (grid : List Nat) (lastslot t : Nat) :
    ∀ (k : Nat) (specs : List BlockSpec), t < k →
    List.filter (is_copy_out_for t)
      ((List.enumFrom k specs).filterMap fun ks =>
        if is_index_invariant ks.2 grid then
          some (Event.copy_smem_to_gmem ks.1 lastslot
            (List.replicate grid.length 0) none)
        else none) = [] := by
  intro k specs
  induction specs generalizing k with
  | nil => intro _; rfl
  | cons sp specs ih =>
      intro ht
      rw [List.enumFrom_cons, List.filterMap_cons]
      split_ifs with h
      · simp only [List.filter_cons]
        have : is_copy_out_for t
            (Event.copy_smem_to_gmem k lastslot
              (List.replicate grid.length 0) none) = false := by
          simp only [is_copy_out_for, beq_eq_false_iff_ne]
          omega
        simp only [this, Bool.false_eq_true, if_false]
        exact ih (k + 1) (by omega)
      · exact ih (k + 1) (by omega)

theorem epilogue_filterMap_target (grid : List Nat) (lastslot : Nat)
    (spec : BlockSpec) (hinv : is_index_invariant spec grid = true) :
    ∀ (t k : Nat) (specs : List BlockSpec), specs[t]? = some spec →
    List.filter (is_copy_out_for (k + t))
      ((List.enumFrom k specs).filterMap fun ks =>
        if is_index_invariant ks.2 grid then
          some (Event.copy_smem_to_gmem ks.1 lastslot
            (List.replicate grid.length 0) none)
        else none)
      = [Event.copy_smem_to_gmem (k + t) lastslot
          (List.replicate grid.length 0) none] := by
  intro t
  induction t with
  | zero =>
      intro k specs hk
      cases specs with
      | nil => simp at hk
      | cons sp specs =>
          rw [List.getElem?_cons_zero, Option.some.injEq] at hk
          subst hk
          rw [List.enumFrom_cons, List.filterMap_cons]
          rw [if_pos hinv]
          simp only [List.filter_cons]
          have : is_copy_out_for (k + 0)
              (Event.copy_smem_to_gmem k lastslot
                (List.replicate grid.length 0) none) = true := by
            simp [is_copy_out_for]
          simp only [this, if_true]
          rw [epilogue_filterMap_below grid lastslot (k + 0) (k + 1)
            specs (by omega)]
          simp
  | succ t ih =>
      intro k specs hk
      cases specs with
      | nil => simp at hk
      | cons sp specs =>
          rw [List.getElem?_cons_succ] at hk
          rw [List.enumFrom_cons, List.filterMap_cons]
          have hrest := ih (k + 1) specs hk
          have harith : k + 1 + t = k + (t + 1) := by omega
          rw [harith] at hrest
          split_ifs with h
          · simp only [List.filter_cons]
            have : is_copy_out_for (k + (t + 1))
                (Event.copy_smem_to_gmem k lastslot
                  (List.replicate grid.length 0) none) = false := by
              simp only [is_copy_out_for, beq_eq_false_iff_ne]
              omega
            simp only [this, Bool.false_eq_true, if_false]
            exact hrest
          · exact hrest

/-! ### The no-output pipeline -/

theorem prologue_countP_zero (cfg : PipelineConfig) (depth : Nat)
    (p : Event → Bool)
    (hp : ∀ k slot idx, p (Event.copy_gmem_to_smem k slot idx) = false) :
    List.countP p (prologue_trace cfg depth) = 0 := by
  rw [List.countP_eq_zero]
  intro a ha
  unfold prologue_trace at ha
  rw [List.mem_flatMap] at ha
  obtain ⟨si, _, hsi⟩ := ha
  rw [List.mem_map] at hsi
  obtain ⟨k, _, hka⟩ := hsi
  subst hka
  simp [hp]

theorem loop_body_counts_no_outputs (cfg : PipelineConfig)
    (depth num_steps s : Nat) (c : Carry) (h : cfg.out_specs = []) :
    List.countP is_commit (loop_body cfg depth num_steps s c).1 = 0
      ∧ List.countP is_copy_out (loop_body cfg depth num_steps s c).1
        = 0 := by
  unfold loop_body
  rw [h]
  simp only [List.all_nil, Bool.not_true, Bool.false_eq_true, if_false,
    out_loop, List.countP_append]
  constructor
  · have h1 : List.countP is_commit
        (if cfg.in_specs ≠ [] then [Event.barrier_wait (s % depth)]
         else []) = 0 := by
      split_ifs <;> simp [is_commit]
    have h2 : List.countP is_commit
        (if s + depth < num_steps then
          (List.range cfg.in_specs.length).map fun k =>
            Event.copy_gmem_to_smem k (s % depth)
              (inc_grid c.1 cfg.grid depth)
         else []) = 0 := by
      split_ifs
      · rw [List.countP_eq_zero]
        intro a ha
        rw [List.mem_map] at ha
        obtain ⟨k, _, hka⟩ := ha
        subst hka
        simp [is_commit]
      · rfl
    rw [h1, h2]
    simp [is_commit]
  · have h1 : List.countP is_copy_out
        (if cfg.in_specs ≠ [] then [Event.barrier_wait (s % depth)]
         else []) = 0 := by
      split_ifs <;> simp [is_copy_out]
    have h2 : List.countP is_copy_out
        (if s + depth < num_steps then
          (List.range cfg.in_specs.length).map fun k =>
            Event.copy_gmem_to_smem k (s % depth)
              (inc_grid c.1 cfg.grid depth)
         else []) = 0 := by
      split_ifs
      · rw [List.countP_eq_zero]
        intro a ha
        rw [List.mem_map] at ha
        obtain ⟨k, _, hka⟩ := ha
        subst hka
        simp [is_copy_out]
      · rfl
    rw [h1, h2]
    simp [is_copy_out]

theorem epilogue_counts_no_outputs (cfg : PipelineConfig)
    (depth num_steps : Nat) (h : cfg.out_specs = []) :
    List.countP is_commit (epilogue_trace cfg depth num_steps) = 1
      ∧ List.countP is_copy_out (epilogue_trace cfg depth num_steps)
        = 0 := by
  unfold epilogue_trace
  rw [h]
  simp [is_commit, is_copy_out, List.countP_cons]

theorem loop_trace_countP_zero (cfg : PipelineConfig)
    (depth num_steps : Nat) (p : Event → Bool)
    (hp : ∀ s, List.countP p
      (loop_body cfg depth num_steps s
        (carry_at cfg depth num_steps s)).1 = 0) :
    List.countP p (loop_trace cfg depth num_steps) = 0 := by
  unfold loop_trace
  rw [List.countP_flatMap]
  have : (List.range num_steps).map
        (List.countP p ∘ fun s => step_events cfg depth num_steps s)
      = (List.range num_steps).map fun _ => 0 := by
    apply List.map_congr_left
    intro s _
    exact hp s
  rw [this]
  simp [List.map_const', List.sum_replicate]

/-! ### Claim theorems -/

/-- C2: advancing the mixed-radix grid counter is additive. For every
grid shape, every componentwise in-range index tuple, and all
nonnegative integers a and b, incrementing by a and then by b equals
incrementing by a + b (wraparound modulo the grid product is inherent
in the increment itself). -/
theorem inc_grid_increment_additive (indices grid : List Nat)
    (hlen : indices.length = grid.length)
    (hin : ∀ p ∈ indices.zip grid, p.1 < p.2) (a b : Nat) :
    inc_grid (inc_grid indices grid a) grid b
      = inc_grid indices grid (a + b) :=
  inc_grid_add_aux indices grid hlen hin a b

/-- Witness for C2 at a concrete input. -/
theorem inc_grid_increment_additive_witness :
    inc_grid (inc_grid [1, 2] [2, 3] 4) [2, 3] 5
      = inc_grid [1, 2] [2, 3] (4 + 5) :=
  inc_grid_increment_additive [1, 2] [2, 3] (by decide) (by decide) 4 5

/-- C3: the dual-path grid increment (per-axis fast path when the index
plus carry stays below twice the size, division/remainder fallback
otherwise) returns the same result as the plain mixed-radix
division/remainder definition, for every index tuple and every
increment amount. -/
theorem inc_grid_dual_path_refines_divmod (indices grid : List Nat)
    (steps : Nat) :
    inc_grid indices grid steps = inc_grid_divmod indices grid steps :=
  inc_grid_eq_divmod indices grid steps

/-- C1: at every loop step, each non-index-invariant output operand
issues exactly one outbound transfer, predicated on (the destination
region differs from the previous step's recorded region) OR (the step
is the last); the predicate is true at step 0 (the sentinel seed
differs from every real region, so the first store is never elided)
and true at the last step (so the final store is never elided). -/
theorem loop_store_predicate (cfg : PipelineConfig) (m t : Nat)
    (spec : BlockSpec) (hk : cfg.out_specs[t]? = some spec)
    (hninv : is_index_invariant spec cfg.grid = false)
    (hlen : spec.index_map.length = spec.block_shape.length)
    (hbs : spec.block_shape ≠ [])
    (hbpos : ∀ b ∈ spec.block_shape, 0 < b)
    (hgpos : ∀ g ∈ cfg.grid, 0 < g) (s : Nat) :
    (List.filter (is_copy_out_for t)
        (step_events cfg (effective_depth cfg m) cfg.grid.prod s)
      = [Event.copy_smem_to_gmem t (s % effective_depth cfg m)
          (step_indices cfg.grid s)
          (some (slices_changed (record_before spec cfg.grid s)
              (store_slices spec (step_indices cfg.grid s))
            || (s == cfg.grid.prod - 1)))])
    ∧ ((slices_changed (record_before spec cfg.grid 0)
          (store_slices spec (step_indices cfg.grid 0))
        || (0 == cfg.grid.prod - 1)) = true)
    ∧ (s = cfg.grid.prod - 1 →
        (slices_changed (record_before spec cfg.grid s)
            (store_slices spec (step_indices cfg.grid s))
          || (s == cfg.grid.prod - 1)) = true) := by
  have him : spec.index_map ≠ [] := by
    intro hc
    rw [hc] at hlen
    simp only [List.length_nil] at hlen
    exact hbs (List.eq_nil_of_length_eq_zero hlen.symm)
  refine ⟨?_, ?_, ?_⟩
  · unfold step_events
    rw [carry_at_spec cfg (effective_depth cfg m) cfg.grid.prod hgpos s]
    unfold loop_body
    simp only [List.filter_append]
    have h1 : List.filter (is_copy_out_for t)
        (if cfg.in_specs ≠ [] then
          [Event.barrier_wait (s % effective_depth cfg m)] else []) = [] := by
      split_ifs <;> simp [is_copy_out_for]
    have h2 : List.filter (is_copy_out_for t)
        [Event.wait_smem_to_gmem (effective_depth cfg m - 1)] = [] := by
      simp [is_copy_out_for]
    have h3 : List.filter (is_copy_out_for t)
        [Event.run_body (s % effective_depth cfg m)
          (step_indices cfg.grid s)] = [] := by
      simp [is_copy_out_for]
    have h4 : List.filter (is_copy_out_for t)
        (if !(cfg.out_specs.all fun sp => is_index_invariant sp cfg.grid)
         then [Event.commit_smem] else []) = [] := by
      split_ifs <;> simp [is_copy_out_for]
    have h5 : List.filter (is_copy_out_for t)
        (if s + effective_depth cfg m < cfg.grid.prod then
          (List.range cfg.in_specs.length).map fun k =>
            Event.copy_gmem_to_smem k (s % effective_depth cfg m)
              (inc_grid (step_indices cfg.grid s) cfg.grid
                (effective_depth cfg m))
         else []) = [] := by
      split_ifs
      · rw [List.filter_eq_nil_iff]
        intro a ha
        rw [List.mem_map] at ha
        obtain ⟨k, _, hka⟩ := ha
        subst hka
        simp [is_copy_out_for]
      · rfl
    have holds : (cfg.out_specs.map fun sp =>
          if is_index_invariant sp cfg.grid then none
          else some (record_before sp cfg.grid s))[t]?
        = some (if is_index_invariant spec cfg.grid then none
            else some (record_before spec cfg.grid s)) := by
      rw [List.getElem?_map, hk]
      rfl
    have houts := out_loop_filter_target cfg.grid cfg.grid.prod s
      (s % effective_depth cfg m) (step_indices cfg.grid s) spec
      (if is_index_invariant spec cfg.grid then none
       else some (record_before spec cfg.grid s))
      hninv t 0 cfg.out_specs
      (cfg.out_specs.map fun sp =>
        if is_index_invariant sp cfg.grid then none
        else some (record_before sp cfg.grid s))
      hk holds
    rw [Nat.zero_add] at houts
    rw [h1, h2, h3, h4, h5, houts]
    simp only [List.nil_append, List.append_nil]
    have : (if is_index_invariant spec cfg.grid then none
        else some (record_before spec cfg.grid s)).getD []
        = record_before spec cfg.grid s := by
      rw [if_neg (by rw [hninv]; exact Bool.false_ne_true)]
      rfl
    rw [this]
  · rw [show record_before spec cfg.grid 0 = sentinel_slices spec by
      unfold record_before; rw [if_pos rfl]]
    rw [slices_changed_sentinel spec (step_indices cfg.grid 0) hbpos him hbs]
    rfl
  · intro hlast
    subst hlast
    simp

/-- Witness for C1 at a concrete input. -/
theorem loop_store_predicate_witness :
    (slices_changed
        (record_before ⟨[1], [IExpr.axis 0]⟩ [2] 0)
        (store_slices ⟨[1], [IExpr.axis 0]⟩ (step_indices [2] 0))
      || ((0 : Nat) == [2].prod - 1)) = true :=
  (loop_store_predicate ⟨[2], [], [⟨[1], [IExpr.axis 0]⟩]⟩ 1 0
    ⟨[1], [IExpr.axis 0]⟩ (by decide) (by decide) (by decide) (by decide)
    (by decide) (by decide) 0).2.1

/-- C5: an index-invariant output operand issues no outbound transfer
inside the steady-state loop; its only outbound transfer is the one in
the epilogue, issued unconditionally from slot (num_steps - 1) mod
depth at the all-zero grid indices. -/
theorem invariant_output_single_store (cfg : PipelineConfig) (m t : Nat)
    (spec : BlockSpec) (hk : cfg.out_specs[t]? = some spec)
    (hinv : is_index_invariant spec cfg.grid = true) :
    List.filter (is_copy_out_for t) (emit_pipeline cfg m).trace
      = [Event.copy_smem_to_gmem t
          ((cfg.grid.prod - 1) % effective_depth cfg m)
          (List.replicate cfg.grid.length 0) none] := by
  show List.filter (is_copy_out_for t)
      (scoped_pipeline_trace cfg (effective_depth cfg m)) = _
  unfold scoped_pipeline_trace
  simp only [List.filter_append]
  rw [prologue_filter_copy_out]
  have hloop : List.filter (is_copy_out_for t)
      (loop_trace cfg (effective_depth cfg m) cfg.grid.prod) = [] := by
    unfold loop_trace
    rw [List.filter_flatMap]
    rw [flatMap_congr_mem _ _ (fun _ => ([] : List Event)) ?_,
      flatMap_const_nil]
    intro s _
    unfold step_events
    rw [loop_body_filter_out]
    have := out_loop_filter_invariant cfg.grid cfg.grid.prod s
      (s % effective_depth cfg m)
      (carry_at cfg (effective_depth cfg m) cfg.grid.prod s).1 spec hinv
      t 0 cfg.out_specs
      (carry_at cfg (effective_depth cfg m) cfg.grid.prod s).2 hk
    rw [Nat.zero_add] at this
    exact this
  rw [hloop]
  unfold epilogue_trace
  simp only [List.filter_append]
  have h1 : List.filter (is_copy_out_for t)
      (if cfg.out_specs.all (fun sp => is_index_invariant sp cfg.grid)
       then [Event.commit_smem] else []) = [] := by
    split_ifs <;> simp [is_copy_out_for]
  have h2 : List.filter (is_copy_out_for t)
      [Event.wait_smem_to_gmem 0] = [] := by
    simp [is_copy_out_for]
  have h3 := epilogue_filterMap_target cfg.grid
    ((cfg.grid.prod - 1) % effective_depth cfg m) spec hinv t 0
    cfg.out_specs hk
  rw [Nat.zero_add] at h3
  rw [h1, h2, show cfg.out_specs.enum = List.enumFrom 0 cfg.out_specs
    from rfl, h3]
  simp

/-- Witness for C5 at a concrete input. -/
theorem invariant_output_single_store_witness :
    List.filter (is_copy_out_for 0)
        (emit_pipeline ⟨[3], [⟨[4], [IExpr.axis 0]⟩],
          [⟨[4], [IExpr.const 0]⟩]⟩ 2).trace
      = [Event.copy_smem_to_gmem 0 (([3].prod - 1) % 2)
          (List.replicate 1 0) none] :=
  invariant_output_single_store ⟨[3], [⟨[4], [IExpr.axis 0]⟩],
    [⟨[4], [IExpr.const 0]⟩]⟩ 2 0 ⟨[4], [IExpr.const 0]⟩
    (by decide) (by decide)

/-- C10: with zero output operands, no commit of scratch-memory writes
is issued in the prologue or the steady-state loop, exactly one commit
is issued for the whole pipeline (the deferred one after the loop,
since the all-outputs-index-invariant condition holds vacuously), and
no outbound transfer is ever issued. -/
theorem no_output_commit_schedule (cfg : PipelineConfig) (m : Nat)
    (h : cfg.out_specs = []) :
    (List.countP is_commit
        (prologue_trace cfg (effective_depth cfg m)
          ++ loop_trace cfg (effective_depth cfg m) cfg.grid.prod) = 0)
      ∧ List.countP is_commit (emit_pipeline cfg m).trace = 1
      ∧ List.countP is_copy_out (emit_pipeline cfg m).trace = 0 := by
  have hpro_commit := prologue_countP_zero cfg (effective_depth cfg m)
    is_commit (fun _ _ _ => rfl)
  have hpro_out := prologue_countP_zero cfg (effective_depth cfg m)
    is_copy_out (fun _ _ _ => rfl)
  have hloop_commit := loop_trace_countP_zero cfg (effective_depth cfg m)
    cfg.grid.prod is_commit (fun s =>
      (loop_body_counts_no_outputs cfg (effective_depth cfg m)
        cfg.grid.prod s _ h).1)
  have hloop_out := loop_trace_countP_zero cfg (effective_depth cfg m)
    cfg.grid.prod is_copy_out (fun s =>
      (loop_body_counts_no_outputs cfg (effective_depth cfg m)
        cfg.grid.prod s _ h).2)
  have hepi := epilogue_counts_no_outputs cfg (effective_depth cfg m)
    cfg.grid.prod h
  refine ⟨?_, ?_, ?_⟩
  · rw [List.countP_append, hpro_commit, hloop_commit]
  · show List.countP is_commit
        (scoped_pipeline_trace cfg (effective_depth cfg m)) = 1
    unfold scoped_pipeline_trace
    simp only [List.countP_append]
    rw [hpro_commit, hloop_commit, hepi.1]
  · show List.countP is_copy_out
        (scoped_pipeline_trace cfg (effective_depth cfg m)) = 0
    unfold scoped_pipeline_trace
    simp only [List.countP_append]
    rw [hpro_out, hloop_out, hepi.2]

/-- Witness for C10 at a concrete input. -/
theorem no_output_commit_schedule_witness :
    List.countP is_commit
        (emit_pipeline ⟨[2], [⟨[1], [IExpr.axis 0]⟩], []⟩ 1).trace = 1 :=
  (no_output_commit_schedule ⟨[2], [⟨[1], [IExpr.axis 0]⟩], []⟩ 1
    rfl).2.1

/-- C4: the total number of inbound transfers issued across the
prologue and the steady-state loop equals exactly num_steps times the
number of input operands; the prologue contributes min(depth,
num_steps) transfers per input and each loop step prefetches one per
input exactly when step + depth < num_steps. -/
theorem inbound_transfer_count (cfg : PipelineConfig) (m : Nat) :
    (List.countP is_copy_in (emit_pipeline cfg m).trace
        = cfg.grid.prod * cfg.in_specs.length)
      ∧ (List.countP is_copy_in
            (prologue_trace cfg (effective_depth cfg m))
          = min m cfg.grid.prod * cfg.in_specs.length)
      ∧ ∀ step c, List.countP is_copy_in
            (loop_body cfg (effective_depth cfg m) cfg.grid.prod step c).1
          = if step + effective_depth cfg m < cfg.grid.prod
            then cfg.in_specs.length else 0 := by
  have hd : effective_depth cfg m = min m cfg.grid.prod := by
    unfold effective_depth
    split_ifs with h <;> omega
  refine ⟨?_, ?_, ?_⟩
  · show List.countP is_copy_in
        (scoped_pipeline_trace cfg (effective_depth cfg m))
      = cfg.grid.prod * cfg.in_specs.length
    unfold scoped_pipeline_trace
    simp only [List.countP_append]
    rw [prologue_countP_copy_in, loop_trace_countP_copy_in,
      epilogue_countP_copy_in, hd]
    have h1 : min (min m cfg.grid.prod) cfg.grid.prod
        = min m cfg.grid.prod := by omega
    rw [h1, Nat.add_zero, ← Nat.add_mul]
    congr 1
    omega
  · rw [prologue_countP_copy_in, hd]
    congr 1
    omega
  · intro step c
    rw [loop_body_countP_copy_in]

/-- C8: the prologue issues, for every step s below min(depth,
num_steps) and every input operand, a transfer into slot s at the grid
indices of step s; those indices are the result of advancing the
all-zero indices by s steps with the grid-increment function, which in
turn is the mixed-radix decomposition of s over the grid shape with the
last axis fastest-varying. -/
theorem prologue_prefetch_schedule (cfg : PipelineConfig) (m : Nat) :
    (prologue_trace cfg (effective_depth cfg m)
        = (List.range (min m cfg.grid.prod)).flatMap fun s =>
            (List.range cfg.in_specs.length).map fun k =>
              Event.copy_gmem_to_smem k s (step_indices cfg.grid s))
      ∧ ∀ s, s < min m cfg.grid.prod →
          step_indices cfg.grid s = (mixed_digits cfg.grid.reverse s).reverse := by
  have hd : effective_depth cfg m = min m cfg.grid.prod := by
    unfold effective_depth
    split_ifs with h <;> omega
  constructor
  · rw [prologue_characterization, hd]
    have : min (min m cfg.grid.prod) cfg.grid.prod
        = min m cfg.grid.prod := by omega
    rw [this]
  · intro s hs
    have hsn : s < cfg.grid.prod := by omega
    have hpos : ∀ g ∈ cfg.grid, 0 < g :=
      prod_pos_entries cfg.grid (by omega)
    rw [step_indices, inc_grid_zeros cfg.grid hpos s]

/-- Witness for C8 at a concrete input. -/
theorem prologue_prefetch_schedule_witness :
    step_indices [2, 3] 4 = (mixed_digits [3, 2] 4).reverse := by
  have h := (prologue_prefetch_schedule ⟨[2, 3], [], []⟩ 5).2 4 (by decide)
  simpa using h

/-- C9: the size component of every dimension of a computed bulk-memory
slice equals the operand's fixed block shape, for every step; hence the
slices-changed comparison between the records of two steps is
determined solely by the start offsets produced by the index map. -/
theorem store_slice_sizes_fixed (spec : BlockSpec)
    (h : spec.index_map.length = spec.block_shape.length)
    (i1 i2 : List Nat) :
    ((compute_gmem_slice spec i1).map Prod.snd
        = spec.block_shape.map Int.ofNat)
      ∧ (slices_changed (store_slices spec i1) (store_slices spec i2) = true
          ↔ (compute_gmem_slice spec i1).map Prod.fst
            ≠ (compute_gmem_slice spec i2).map Prod.fst) := by
  refine ⟨compute_gmem_slice_sizes spec h i1, ?_⟩
  rw [← store_slices_map_start, ← store_slices_map_start]
  apply slices_changed_iff_starts
  rw [store_slices_map_size, store_slices_map_size,
    compute_gmem_slice_sizes spec h i1, compute_gmem_slice_sizes spec h i2]

/-- Witness for C9 at a concrete input. -/
theorem store_slice_sizes_fixed_witness :
    ((compute_gmem_slice ⟨[2], [IExpr.axis 0]⟩ [0]).map Prod.snd
        = [2].map Int.ofNat)
      ∧ (slices_changed (store_slices ⟨[2], [IExpr.axis 0]⟩ [0])
            (store_slices ⟨[2], [IExpr.axis 0]⟩ [1]) = true
          ↔ (compute_gmem_slice ⟨[2], [IExpr.axis 0]⟩ [0]).map Prod.fst
            ≠ (compute_gmem_slice ⟨[2], [IExpr.axis 0]⟩ [1]).map Prod.fst) :=
  store_slice_sizes_fixed ⟨[2], [IExpr.axis 0]⟩ (by decide) [0] [1]

/-- C6: the invariance analysis is static: an operand is index-invariant
exactly when the analyzer reports that no grid axis is used by its
index map; and whenever it holds, the index map evaluates identically
at all grid indices (a map depending on an axis therefore yields
false, a constant map yields true). -/
theorem is_index_invariant_characterization (spec : BlockSpec)
    (grid : List Nat)
    (hwf : ∀ e ∈ spec.index_map, e.axes_below grid.length = true) :
    (is_index_invariant spec grid = true
        ↔ ∀ i < grid.length, ∀ e ∈ spec.index_map, e.uses_axis i = false)
      ∧ (is_index_invariant spec grid = true →
          ∀ xs ys : List Int,
            spec.index_map.map (IExpr.eval xs)
              = spec.index_map.map (IExpr.eval ys)) := by
  have hiff : is_index_invariant spec grid = true
      ↔ ∀ i < grid.length, ∀ e ∈ spec.index_map,
          e.uses_axis i = false := by
    unfold is_index_invariant uses_arguments
    simp only [Bool.not_eq_true', List.any_eq_false, List.mem_map,
      List.mem_range, id]
    constructor
    · intro h i hi e he
      have := h ((spec.index_map.any fun e => e.uses_axis i)) ⟨i, hi, rfl⟩
      rw [Bool.not_eq_true, List.any_eq_false] at this
      exact Bool.not_eq_true _ ▸ this e he
    · intro h x hx
      obtain ⟨i, hi, hix⟩ := hx
      subst hix
      rw [Bool.not_eq_true, List.any_eq_false]
      exact fun e he => by rw [Bool.not_eq_true]; exact h i hi e he
  refine ⟨hiff, ?_⟩
  intro hinv xs ys
  apply List.map_congr_left
  intro e he
  exact eval_constant_of_no_axis_use e grid.length (hwf e he)
    (fun i hi => hiff.mp hinv i hi e he) xs ys

/-- Witness for C6 at a concrete input. -/
theorem is_index_invariant_characterization_witness :
    [IExpr.const 5].map (IExpr.eval [0])
      = [IExpr.const 5].map (IExpr.eval [9]) :=
  (is_index_invariant_characterization ⟨[1], [IExpr.const 5]⟩ [2]
    (by decide)).2 (by decide) [0] [9]

/-- C7: building the pipeline with max_concurrent_steps above the step
count produces exactly the same build (scratch shapes, barrier count,
and event trace) as building with it equal to the step count; the
effective buffering depth is the minimum of the configured depth and
the step count. -/
theorem emit_pipeline_clamp_transparent (cfg : PipelineConfig) (m : Nat) :
    emit_pipeline cfg m = emit_pipeline cfg (min m cfg.grid.prod)
      ∧ effective_depth cfg m = min m cfg.grid.prod := by
  have hd : ∀ m' : Nat, effective_depth cfg m' = min m' cfg.grid.prod := by
    intro m'
    unfold effective_depth
    split_ifs with h <;> omega
  have hdd : effective_depth cfg m
      = effective_depth cfg (min m cfg.grid.prod) := by
    rw [hd, hd]
    omega
  refine ⟨?_, hd m⟩
  unfold emit_pipeline
  rw [hdd]

end Pipeline
